import Mathlib

/-!
# USBManager — verification of the natural-language specification

Shallow embedding of the parts of the USBManager repository (a Tauri v2
forensic USB tracker: SvelteKit/TypeScript frontend under `src/`) that the
claims refer to, together with theorems settling each claim.

Strings are modelled as `List Char`; JavaScript's locale-sensitive
`localeCompare` is modelled as code-point lexicographic comparison.
-/

namespace USBManager

/-! ## Character-list string helpers

`splitOn sep l` models JavaScript's `String.prototype.split(sep)` for a
single-character separator: the result is always non-empty and keeps empty
fragments (`"a..b".split('.') = ["a","","b"]`, `"".split('.') = [""]`). -/

def splitOn (sep : Char) : List Char → List (List Char)
  | [] => [[]]
  | c :: rest =>
    if c = sep then [] :: splitOn sep rest
    else
      match splitOn sep rest with
      | g :: gs => (c :: g) :: gs
      | [] => [[c]]

theorem splitOn_ne_nil (sep : Char) (l : List Char) : splitOn sep l ≠ [] := by
  cases l with
  | nil => simp [splitOn]
  | cons c rest =>
    simp only [splitOn]
    split
    · simp
    · cases h : splitOn sep rest with
      | nil => simp
      | cons g gs => simp

/-- Models JS `filename.split('.')` having a single piece iff no dot occurs. -/
theorem splitOn_of_not_mem (sep : Char) (l : List Char) (h : sep ∉ l) :
    splitOn sep l = [l] := by
  induction l with
  | nil => simp [splitOn]
  | cons c rest ih =>
    simp only [List.mem_cons, not_or] at h
    simp only [splitOn]
    rw [ih h.2, if_neg (fun hc => h.1 hc.symm)]

theorem splitOn_eq_singleton (sep : Char) (l g : List Char)
    (h : splitOn sep l = [g]) : l = g ∧ sep ∉ g := by
  induction l generalizing g with
  | nil => simp [splitOn] at h; simp [h]
  | cons c rest ih =>
    simp only [splitOn] at h
    split at h
    · have := splitOn_ne_nil sep rest
      simp at h
      exact absurd h.2 this
    · rename_i hc
      cases hsp : splitOn sep rest with
      | nil => exact absurd hsp (splitOn_ne_nil sep rest)
      | cons g' gs =>
        rw [hsp] at h
        have hgs : gs = [] := by
          by_contra hne
          cases gs <;> simp_all
        subst hgs
        have hg : g = c :: g' := by simp at h; exact h.symm
        have := ih g' (by rw [hsp])
        subst hg
        refine ⟨by rw [this.1], ?_⟩
        simp only [List.mem_cons, not_or]
        exact ⟨fun hh => hc hh.symm, this.2⟩

/-- Helper: `getLastD` of a cons ignores the head when the tail is non-empty. -/
theorem getLastD_cons_of_ne_nil (a : List Char) (l : List (List Char))
    (h : l ≠ []) (d : List Char) : (a :: l).getLastD d = l.getLastD d := by
  cases l with
  | nil => exact absurd rfl h
  | cons b l' => simp [List.getLastD_cons]

/-- When a split has more than one fragment, the original list decomposes
around its last separator, and the last fragment is the suffix after it. -/
theorem splitOn_last_structure (sep : Char) :
    ∀ l : List Char, 1 < (splitOn sep l).length →
      ∃ pre suf, l = pre ++ sep :: suf ∧ sep ∉ suf ∧
        (splitOn sep l).getLastD [] = suf := by
  intro l
  induction l with
  | nil => simp [splitOn]
  | cons c rest ih =>
    intro hlen
    simp only [splitOn] at hlen ⊢
    split at hlen
    · rename_i hc
      subst hc
      by_cases h1 : 1 < (splitOn c rest).length
      · obtain ⟨pre, suf, heq, hnm, hlast⟩ := ih h1
        refine ⟨c :: pre, suf, by simp [heq], hnm, ?_⟩
        rw [if_pos rfl]
        rw [getLastD_cons_of_ne_nil [] _ (splitOn_ne_nil c rest)]
        exact hlast
      · have hne := splitOn_ne_nil c rest
        cases hsp : splitOn c rest with
        | nil => exact absurd hsp hne
        | cons g gs =>
          have hgs : gs = [] := by
            rw [hsp] at h1
            simp at h1
            cases gs with
            | nil => rfl
            | cons _ _ => simp at h1
          subst hgs
          obtain ⟨hrest, hnm⟩ := splitOn_eq_singleton c rest g hsp
          refine ⟨[], g, by simp [hrest], hnm, ?_⟩
          simp [hsp, List.getLastD_cons]
    · rename_i hc
      cases hsp : splitOn sep rest with
      | nil => exact absurd hsp (splitOn_ne_nil sep rest)
      | cons g gs =>
        rw [hsp] at hlen
        simp only [List.length_cons] at hlen
        have hgs : gs ≠ [] := by
          intro h
          subst h
          simp at hlen
        have hrec : 1 < (splitOn sep rest).length := by
          rw [hsp]
          simp only [List.length_cons]
          cases gs with
          | nil => exact absurd rfl hgs
          | cons _ _ => simp
        obtain ⟨pre, suf, heq, hnm, hlast⟩ := ih hrec
        rw [hsp] at hlast
        refine ⟨c :: pre, suf, by simp [heq], hnm, ?_⟩
        try rw [if_neg hc]
        try rw [hsp]
        show ((c :: g) :: gs).getLastD [] = suf
        rw [getLastD_cons_of_ne_nil (c :: g) gs hgs,
          ← getLastD_cons_of_ne_nil g gs hgs]
        exact hlast


/-! ## String comparison (model of `localeCompare`)

JavaScript's `a.localeCompare(b)` is locale-dependent; the embedding models
it as code-point lexicographic comparison returning −1/0/1. -/

def lexCmp : List Char → List Char → Int
  | [], [] => 0
  | [], _ :: _ => -1
  | _ :: _, [] => 1
  | a :: as, b :: bs =>
    if a.toNat < b.toNat then -1
    else if b.toNat < a.toNat then 1
    else lexCmp as bs

theorem lexCmp_total : ∀ a b : List Char, lexCmp a b ≤ 0 ∨ lexCmp b a ≤ 0 := by
  intro a
  induction a with
  | nil => intro b; cases b <;> simp [lexCmp]
  | cons x xs ih =>
    intro b
    cases b with
    | nil => simp [lexCmp]
    | cons y ys =>
      simp only [lexCmp]
      by_cases h1 : x.toNat < y.toNat
      · simp [h1]
      · by_cases h2 : y.toNat < x.toNat
        · simp [h1, h2]
        · simpa [h1, h2] using ih ys

theorem lexCmp_trans : ∀ a b c : List Char,
    lexCmp a b ≤ 0 → lexCmp b c ≤ 0 → lexCmp a c ≤ 0 := by
  intro a
  induction a with
  | nil => intro b c _ _; cases c <;> simp [lexCmp]
  | cons x xs ih =>
    intro b c hab hbc
    cases b with
    | nil => simp [lexCmp] at hab
    | cons y ys =>
      cases c with
      | nil => simp [lexCmp] at hbc
      | cons z zs =>
        simp only [lexCmp] at hab hbc ⊢
        by_cases hxy : x.toNat < y.toNat
        · by_cases hyz : y.toNat < z.toNat
          · rw [if_pos (Nat.lt_trans hxy hyz)]
            decide
          · by_cases hzy : z.toNat < y.toNat
            · rw [if_neg hyz, if_pos hzy] at hbc
              exact absurd hbc (by decide)
            · rw [if_pos (show x.toNat < z.toNat by omega)]
              decide
        · by_cases hyx : y.toNat < x.toNat
          · rw [if_neg hxy, if_pos hyx] at hab
            exact absurd hab (by decide)
          · rw [if_neg hxy, if_neg hyx] at hab
            by_cases hyz : y.toNat < z.toNat
            · rw [if_pos (show x.toNat < z.toNat by omega)]
              decide
            · by_cases hzy : z.toNat < y.toNat
              · rw [if_neg hyz, if_pos hzy] at hbc
                exact absurd hbc (by decide)
              · rw [if_neg hyz, if_neg hzy] at hbc
                rw [if_neg (show ¬ x.toNat < z.toNat by omega),
                  if_neg (show ¬ z.toNat < x.toNat by omega)]
                exact ih ys zs hab hbc

/-! ## `getFileExtension` (device-detail page, lines 117–123)

```js
function getFileExtension(filename) {
  const parts = filename.split('.');
  if (parts.length > 1 && !filename.startsWith('.')) {
    return parts[parts.length - 1].toLowerCase();
  }
  return undefined;
}
``` -/

/-- Models JS `filename.startsWith('.')`. -/
def startsWithDot : List Char → Bool
  | '.' :: _ => true
  | _ => false

def getFileExtension (filename : List Char) : Option (List Char) :=
  let parts := splitOn '.' filename
  if 1 < parts.length ∧ startsWithDot filename = false then
    some ((parts.getLastD []).map Char.toLower)
  else none

theorem getFileExtension_of_no_dot (filename : List Char)
    (h : '.' ∉ filename) : getFileExtension filename = none := by
  simp [getFileExtension, splitOn_of_not_mem '.' filename h]

theorem getFileExtension_of_dotfile (filename : List Char)
    (h : startsWithDot filename = true) : getFileExtension filename = none := by
  simp [getFileExtension, h]

/-- A defined extension is the lowercased suffix after the last dot. -/
theorem getFileExtension_eq_some (filename e : List Char)
    (h : getFileExtension filename = some e) :
    ∃ pre suf, filename = pre ++ '.' :: suf ∧ '.' ∉ suf ∧
      e = suf.map Char.toLower := by
  simp only [getFileExtension] at h
  split at h
  · rename_i hcond
    obtain ⟨pre, suf, heq, hnm, hlast⟩ :=
      splitOn_last_structure '.' filename hcond.1
    refine ⟨pre, suf, heq, hnm, ?_⟩
    simp only [Option.some_inj] at h
    rw [← h, hlast]
  · exact absurd h (by simp)

/-! ## The `FileNode` tree (device-detail page, lines 13–21)

```ts
interface FileNode {
  name: string; path: string; is_folder: boolean; size: number;
  extension?: string; children: FileNode[]; expanded?: boolean;
}
``` -/

inductive FileNode where
  | mk (name : List Char) (path : List Char) (is_folder : Bool) (size : Nat)
       (extension : Option (List Char)) (children : List FileNode)
       (expanded : Bool)

def FileNode.name : FileNode → List Char
  | .mk n _ _ _ _ _ _ => n

def FileNode.path : FileNode → List Char
  | .mk _ p _ _ _ _ _ => p

def FileNode.is_folder : FileNode → Bool
  | .mk _ _ f _ _ _ _ => f

def FileNode.size : FileNode → Nat
  | .mk _ _ _ s _ _ _ => s

def FileNode.extension : FileNode → Option (List Char)
  | .mk _ _ _ _ e _ _ => e

def FileNode.children : FileNode → List FileNode
  | .mk _ _ _ _ _ cs _ => cs

def FileNode.expanded : FileNode → Bool
  | .mk _ _ _ _ _ _ x => x

theorem children_mk (n p : List Char) (f : Bool) (s : Nat)
    (e : Option (List Char)) (cs : List FileNode) (x : Bool) :
    (FileNode.mk n p f s e cs x).children = cs := rfl

theorem name_mk (n p : List Char) (f : Bool) (s : Nat)
    (e : Option (List Char)) (cs : List FileNode) (x : Bool) :
    (FileNode.mk n p f s e cs x).name = n := rfl

theorem is_folder_mk (n p : List Char) (f : Bool) (s : Nat)
    (e : Option (List Char)) (cs : List FileNode) (x : Bool) :
    (FileNode.mk n p f s e cs x).is_folder = f := rfl

theorem extension_mk (n p : List Char) (f : Bool) (s : Nat)
    (e : Option (List Char)) (cs : List FileNode) (x : Bool) :
    (FileNode.mk n p f s e cs x).extension = e := rfl

/-- Replace the children list, keeping every other field (models in-place
mutation of a found node's subtree). -/
def FileNode.withChildren : FileNode → List FileNode → FileNode
  | .mk n p f s e _ x, cs => .mk n p f s e cs x

theorem FileNode.withChildren_name (t : FileNode) (cs : List FileNode) :
    (t.withChildren cs).name = t.name := by cases t; rfl

theorem FileNode.withChildren_is_folder (t : FileNode) (cs : List FileNode) :
    (t.withChildren cs).is_folder = t.is_folder := by cases t; rfl

theorem FileNode.withChildren_extension (t : FileNode) (cs : List FileNode) :
    (t.withChildren cs).extension = t.extension := by cases t; rfl

theorem FileNode.withChildren_children (t : FileNode) (cs : List FileNode) :
    (t.withChildren cs).children = cs := by cases t; rfl

/-! ## `sortFileNodes` (device-detail page, lines 172–187)

```js
function sortFileNodes(node) {
  node.children.sort((a, b) => {
    if (a.is_folder && !b.is_folder) return -1;
    if (!a.is_folder && b.is_folder) return 1;
    return a.name.localeCompare(b.name);
  });
  for (const child of node.children) {
    if (child.children.length > 0) sortFileNodes(child);
  }
}
```

`Array.prototype.sort` is a stable sort; the embedding uses stable insertion
sort, which agrees with every stable sort for a total preorder comparator. -/

/-- The JS comparator. -/
def cmpNodes (a b : FileNode) : Int :=
  if a.is_folder = true ∧ b.is_folder = false then -1
  else if a.is_folder = false ∧ b.is_folder = true then 1
  else lexCmp a.name b.name

/-- `nodeLEb a b` means the comparator orders `a` at-or-before `b`. -/
def nodeLEb (a b : FileNode) : Bool := decide (cmpNodes a b ≤ 0)

theorem nodeLEb_total (a b : FileNode) :
    nodeLEb a b = true ∨ nodeLEb b a = true := by
  simp only [nodeLEb, decide_eq_true_eq, cmpNodes]
  cases hfa : a.is_folder <;> cases hfb : b.is_folder <;> simp
  · exact lexCmp_total a.name b.name
  · exact lexCmp_total a.name b.name

theorem nodeLEb_trans (a b c : FileNode) (hab : nodeLEb a b = true)
    (hbc : nodeLEb b c = true) : nodeLEb a c = true := by
  simp only [nodeLEb, decide_eq_true_eq, cmpNodes] at hab hbc ⊢
  cases hfa : a.is_folder <;> cases hfb : b.is_folder <;>
    cases hfc : c.is_folder <;> simp_all
  · exact lexCmp_trans _ _ _ hab hbc
  · exact lexCmp_trans _ _ _ hab hbc

/-- `nodeLEb` only inspects the folder flag and the name. -/
theorem nodeLEb_congr (a b a' b' : FileNode)
    (ha1 : a'.is_folder = a.is_folder) (ha2 : a'.name = a.name)
    (hb1 : b'.is_folder = b.is_folder) (hb2 : b'.name = b.name) :
    nodeLEb a' b' = nodeLEb a b := by
  simp [nodeLEb, cmpNodes, ha1, ha2, hb1, hb2]

/-- Stable insertion step of the sort. -/
def insertSorted {α : Type} (le : α → α → Bool) (a : α) : List α → List α
  | [] => [a]
  | b :: bs => if le a b then a :: b :: bs else b :: insertSorted le a bs

/-- Stable insertion sort, the embedding of `Array.prototype.sort(cmp)`. -/
def sortBy {α : Type} (le : α → α → Bool) : List α → List α
  | [] => []
  | a :: as => insertSorted le a (sortBy le as)

theorem insertSorted_perm {α : Type} (le : α → α → Bool) (a : α)
    (l : List α) : List.Perm (insertSorted le a l) (a :: l) := by
  induction l with
  | nil => simp [insertSorted]
  | cons b bs ih =>
    simp only [insertSorted]
    split
    · exact List.Perm.refl _
    · exact (ih.cons b).trans (List.Perm.swap a b bs)

theorem sortBy_perm {α : Type} (le : α → α → Bool) (l : List α) :
    List.Perm (sortBy le l) l := by
  induction l with
  | nil => exact List.Perm.refl _
  | cons a as ih => exact (insertSorted_perm le a (sortBy le as)).trans (ih.cons a)

theorem pairwise_insertSorted {α : Type} (le : α → α → Bool)
    (htot : ∀ a b, le a b = true ∨ le b a = true)
    (htrans : ∀ a b c, le a b = true → le b c = true → le a c = true)
    (a : α) (l : List α) (hl : l.Pairwise (fun x y => le x y = true)) :
    (insertSorted le a l).Pairwise (fun x y => le x y = true) := by
  induction l with
  | nil => simp [insertSorted]
  | cons b bs ih =>
    rw [List.pairwise_cons] at hl
    simp only [insertSorted]
    split
    · rename_i hab
      rw [List.pairwise_cons]
      refine ⟨?_, List.pairwise_cons.mpr hl⟩
      intro x hx
      rcases List.mem_cons.mp hx with rfl | hx'
      · exact hab
      · exact htrans a b x hab (hl.1 x hx')
    · rename_i hab
      have hba : le b a = true := by
        rcases htot a b with h | h
        · exact absurd h hab
        · exact h
      rw [List.pairwise_cons]
      refine ⟨?_, ih hl.2⟩
      intro x hx
      rcases List.mem_cons.mp ((insertSorted_perm le a bs).mem_iff.mp hx)
        with rfl | hx'
      · exact hba
      · exact hl.1 x hx'

theorem pairwise_sortBy {α : Type} (le : α → α → Bool)
    (htot : ∀ a b, le a b = true ∨ le b a = true)
    (htrans : ∀ a b c, le a b = true → le b c = true → le a c = true)
    (l : List α) : (sortBy le l).Pairwise (fun x y => le x y = true) := by
  induction l with
  | nil => simp [sortBy]
  | cons a as ih => exact pairwise_insertSorted le htot htrans a (sortBy le as) ih

/-- The recursive sorting pass: sort the children with the comparator, then
recursively sort each child that itself has children. -/
def sortFileNodes (t : FileNode) : FileNode :=
  match t with
  | .mk nm pa f sz e cs ex =>
    .mk nm pa f sz e
      ((sortBy nodeLEb cs).attach.map (fun c =>
        if 0 < c.1.children.length then sortFileNodes c.1 else c.1)) ex
termination_by sizeOf t
decreasing_by
  simp_wf
  have h1 := List.sizeOf_lt_of_mem ((sortBy_perm nodeLEb _).mem_iff.mp c.2)
  omega

/-- `attach`-free unfolding of `sortFileNodes`, used for all reasoning. -/
theorem sortFileNodes_mk (nm pa : List Char) (f : Bool) (sz : Nat)
    (e : Option (List Char)) (cs : List FileNode) (ex : Bool) :
    sortFileNodes (.mk nm pa f sz e cs ex) =
      .mk nm pa f sz e
        ((sortBy nodeLEb cs).map (fun c =>
          if 0 < c.children.length then sortFileNodes c else c)) ex := by
  conv_lhs => unfold sortFileNodes
  congr 1
  exact List.attach_map_coe (sortBy nodeLEb cs)
    (fun c => if 0 < c.children.length then sortFileNodes c else c)

theorem sortFileNodes_name (t : FileNode) : (sortFileNodes t).name = t.name := by
  cases t
  rw [sortFileNodes_mk]
  rfl

theorem sortFileNodes_is_folder (t : FileNode) :
    (sortFileNodes t).is_folder = t.is_folder := by
  cases t
  rw [sortFileNodes_mk]
  rfl

theorem sortFileNodes_extension (t : FileNode) :
    (sortFileNodes t).extension = t.extension := by
  cases t
  rw [sortFileNodes_mk]
  rfl

/-! ## `buildFileTree` (device-detail page, lines 125–170)

```js
function buildFileTree(snapshots) {
  const root = { name: 'Root', path: '/', is_folder: true, size: 0,
                 children: [], expanded: true };
  for (const snapshot of snapshots) {
    const parts = snapshot.path.split('/').filter(p => p.length > 0);
    let current = root;
    let currentPath = '';
    for (let i = 0; i < parts.length; i++) {
      const part = parts[i];
      currentPath += '/' + part;
      const isLast = i === parts.length - 1;
      let existingNode = current.children.find(child => child.name === part);
      if (!existingNode) {
        const newNode = { name: part, path: currentPath,
          is_folder: isLast ? snapshot.is_folder : true,
          size: isLast ? snapshot.size : 0,
          extension: !isLast || snapshot.is_folder ? undefined
                                                   : getFileExtension(part),
          children: [], expanded: false };
        current.children.push(newNode);
        current = newNode;
      } else { current = existingNode; }
    }
  }
  sortFileNodes(root);
  return root;
}
``` -/

/-- One row of the `snapshots` array of `get_device_files`. -/
structure Snapshot where
  path : List Char
  is_folder : Bool
  size : Nat

/-- Replace the first child carrying the given name (the `find` result is
mutated in place in the JS code). -/
def replaceFirst (nm : List Char) (x : FileNode) : List FileNode → List FileNode
  | [] => []
  | c :: cs => if c.name = nm then x :: cs else c :: replaceFirst nm x cs

/-- Walk/extend the tree along `parts`, the inner `for` loop of
`buildFileTree` for one snapshot row. -/
def insertParts (sf : Bool) (sz : Nat) :
    List (List Char) → List Char → FileNode → FileNode
  | [], _, node => node
  | part :: rest, curPath, node =>
    let newPath := curPath ++ '/' :: part
    match node.children.find? (fun c => decide (c.name = part)) with
    | some c =>
      node.withChildren
        (replaceFirst part (insertParts sf sz rest newPath c) node.children)
    | none =>
      let isLast := rest.isEmpty
      let fresh : FileNode := .mk part newPath
        (if isLast then sf else true)
        (if isLast then sz else 0)
        (if isLast = false ∨ sf = true then none else getFileExtension part)
        [] false
      node.withChildren (node.children ++ [insertParts sf sz rest newPath fresh])

def rootNode : FileNode :=
  .mk "Root".toList "/".toList true 0 none [] true

/-- `snapshot.path.split('/').filter(p => p.length > 0)` -/
def pathParts (path : List Char) : List (List Char) :=
  (splitOn '/' path).filter (fun p => 0 < p.length)

def buildFileTree (snapshots : List Snapshot) : FileNode :=
  sortFileNodes (snapshots.foldl
    (fun acc s => insertParts s.is_folder s.size (pathParts s.path) [] acc)
    rootNode)

/-! ### All nodes of a tree -/

mutual
def allNodes : FileNode → List FileNode
  | .mk nm pa f sz e cs ex => .mk nm pa f sz e cs ex :: allNodesList cs
def allNodesList : List FileNode → List FileNode
  | [] => []
  | c :: cs => allNodes c ++ allNodesList cs
end

theorem self_mem_allNodes (t : FileNode) : t ∈ allNodes t := by
  cases t
  simp [allNodes]

theorem allNodes_eq (t : FileNode) :
    allNodes t = t :: allNodesList t.children := by
  cases t
  rfl

theorem mem_allNodesList (n : FileNode) (cs : List FileNode) :
    n ∈ allNodesList cs ↔ ∃ c ∈ cs, n ∈ allNodes c := by
  induction cs with
  | nil => simp [allNodesList]
  | cons c cs ih => simp [allNodesList, ih]

theorem mem_allNodes_iff (n t : FileNode) :
    n ∈ allNodes t ↔ n = t ∨ ∃ c ∈ t.children, n ∈ allNodes c := by
  rw [allNodes_eq]
  simp [mem_allNodesList]

theorem allNodesList_append (cs ds : List FileNode) :
    allNodesList (cs ++ ds) = allNodesList cs ++ allNodesList ds := by
  induction cs with
  | nil => simp [allNodesList]
  | cons c cs ih => simp [allNodesList, ih]

/-- The two-entry snapshot list of Scenario C of the spec. -/
def scenarioC : List Snapshot :=
  [⟨"docs".toList, true, 0⟩, ⟨"docs/a.txt".toList, false, 1024⟩]

/-! ### Extension invariant of the built tree (claim C6 machinery) -/

/-- A node's extension field is either absent, or the node was created as a
file and the extension is `getFileExtension` of its name. -/
def ExtOK (n : FileNode) : Prop :=
  n.extension = none ∨
    (n.is_folder = false ∧ n.extension = getFileExtension n.name)

def TreeExtOK (t : FileNode) : Prop := ∀ n ∈ allNodes t, ExtOK n

theorem ExtOK_withChildren (t : FileNode) (cs : List FileNode) :
    ExtOK (t.withChildren cs) ↔ ExtOK t := by
  simp [ExtOK, FileNode.withChildren_extension, FileNode.withChildren_is_folder,
    FileNode.withChildren_name]

theorem mem_allNodesList_replaceFirst (n : FileNode) (nm : List Char)
    (x : FileNode) (cs : List FileNode)
    (h : n ∈ allNodesList (replaceFirst nm x cs)) :
    n ∈ allNodesList cs ∨ n ∈ allNodes x := by
  induction cs with
  | nil => simp [replaceFirst, allNodesList] at h
  | cons c cs ih =>
    simp only [replaceFirst] at h
    split at h
    · simp only [allNodesList, List.mem_append] at h ⊢
      tauto
    · simp only [allNodesList, List.mem_append] at h ⊢
      rcases h with h | h
      · tauto
      · rcases ih h with h' | h' <;> tauto

theorem treeExtOK_of_child {t c : FileNode} (hc : c ∈ t.children)
    (h : TreeExtOK t) : TreeExtOK c := by
  intro n hn
  exact h n ((mem_allNodes_iff n t).mpr (Or.inr ⟨c, hc, hn⟩))

theorem treeExtOK_insertParts (sf : Bool) (sz : Nat) :
    ∀ (parts : List (List Char)) (curPath : List Char) (t : FileNode),
      TreeExtOK t → TreeExtOK (insertParts sf sz parts curPath t) := by
  intro parts
  induction parts with
  | nil => intro curPath t ht; simpa [insertParts] using ht
  | cons part rest ih =>
    intro curPath t ht
    simp only [insertParts]
    cases hfind : t.children.find? (fun c => decide (c.name = part)) with
    | some c =>
      have hcmem : c ∈ t.children := List.mem_of_find?_eq_some hfind
      intro n hn
      rw [mem_allNodes_iff] at hn
      rcases hn with rfl | ⟨c', hc', hn⟩
      · exact (ExtOK_withChildren t _).mpr (ht t (self_mem_allNodes t))
      · rw [FileNode.withChildren_children] at hc'
        have : n ∈ allNodesList (replaceFirst part
            (insertParts sf sz rest (curPath ++ '/' :: part) c) t.children) := by
          rw [mem_allNodesList]
          exact ⟨c', hc', hn⟩
        rcases mem_allNodesList_replaceFirst n _ _ _ this with h' | h'
        · rcases (mem_allNodesList n t.children).mp h' with ⟨d, hd, hnd⟩
          exact treeExtOK_of_child hd ht n hnd
        · exact ih _ c (treeExtOK_of_child hcmem ht) n h'
    | none =>
      intro n hn
      rw [mem_allNodes_iff] at hn
      rcases hn with rfl | ⟨c', hc', hn⟩
      · exact (ExtOK_withChildren t _).mpr (ht t (self_mem_allNodes t))
      · rw [FileNode.withChildren_children] at hc'
        have : n ∈ allNodesList (t.children ++
            [insertParts sf sz rest (curPath ++ '/' :: part)
              (.mk part (curPath ++ '/' :: part)
                (if rest.isEmpty then sf else true)
                (if rest.isEmpty then sz else 0)
                (if rest.isEmpty = false ∨ sf = true then none
                 else getFileExtension part) [] false)]) := by
          rw [mem_allNodesList]
          exact ⟨c', hc', hn⟩
        rw [allNodesList_append] at this
        rcases List.mem_append.mp this with h' | h'
        · rcases (mem_allNodesList n t.children).mp h' with ⟨d, hd, hnd⟩
          exact treeExtOK_of_child hd ht n hnd
        · have hfr : TreeExtOK (.mk part (curPath ++ '/' :: part)
              (if rest.isEmpty then sf else true)
              (if rest.isEmpty then sz else 0)
              (if rest.isEmpty = false ∨ sf = true then none
               else getFileExtension part) [] false) := by
            intro m hm
            rw [mem_allNodes_iff] at hm
            rcases hm with rfl | ⟨c'', hc'', _⟩
            · by_cases hcond : rest.isEmpty = false ∨ sf = true
              · left
                simp only [FileNode.extension]
                exact if_pos hcond
              · have h1 : rest.isEmpty = true := by
                  cases h : rest.isEmpty
                  · exact absurd (Or.inl h) hcond
                  · rfl
                have h2 : sf = false := by
                  cases h : sf
                  · rfl
                  · exact absurd (Or.inr h) hcond
                right
                constructor
                · simp [FileNode.is_folder, h1, h2]
                · simp [FileNode.extension, FileNode.name, h1, h2]
            · simp [FileNode.children] at hc''
          have hx :
              n ∈ allNodesList [insertParts sf sz rest (curPath ++ '/' :: part)
                (.mk part (curPath ++ '/' :: part)
                  (if rest.isEmpty then sf else true)
                  (if rest.isEmpty then sz else 0)
                  (if rest.isEmpty = false ∨ sf = true then none
                   else getFileExtension part) [] false)] := h'
          simp only [allNodesList, List.append_nil] at hx
          exact ih _ _ hfr n hx

/-- One recursive-step image of a child inside `sortFileNodes` keeps name,
folder flag and extension. -/
theorem sortStep_fields (c : FileNode) :
    (if 0 < c.children.length then sortFileNodes c else c).name = c.name ∧
    (if 0 < c.children.length then sortFileNodes c else c).is_folder = c.is_folder ∧
    (if 0 < c.children.length then sortFileNodes c else c).extension = c.extension := by
  split
  · exact ⟨sortFileNodes_name c, sortFileNodes_is_folder c, sortFileNodes_extension c⟩
  · exact ⟨rfl, rfl, rfl⟩

/-- Every node of the sorted tree corresponds to a node of the unsorted tree
with the same name, folder flag and extension. -/
theorem mem_allNodes_sortFileNodes :
    ∀ (N : Nat) (t : FileNode), sizeOf t ≤ N →
      ∀ n ∈ allNodes (sortFileNodes t), ∃ m ∈ allNodes t,
        n.name = m.name ∧ n.is_folder = m.is_folder ∧
        n.extension = m.extension := by
  intro N
  induction N with
  | zero =>
    intro t ht
    cases t
    simp [FileNode.mk.sizeOf_spec] at ht
  | succ N ih =>
    intro t ht n hn
    cases t with
    | mk nm pa f sz e cs ex =>
      rw [sortFileNodes_mk] at hn
      rw [mem_allNodes_iff] at hn
      rcases hn with rfl | ⟨c', hc', hn⟩
      · refine ⟨.mk nm pa f sz e cs ex, self_mem_allNodes _, rfl, rfl, rfl⟩
      · simp only [children_mk, List.mem_map] at hc'
        obtain ⟨c, hcs, rfl⟩ := hc'
        have hcmem : c ∈ cs := (sortBy_perm nodeLEb cs).mem_iff.mp hcs
        have hsize : sizeOf c ≤ N := by
          have := List.sizeOf_lt_of_mem hcmem
          simp [FileNode.mk.sizeOf_spec] at ht
          omega
        by_cases hlen : 0 < c.children.length
        · rw [if_pos hlen] at hn
          obtain ⟨m, hm, hf⟩ := ih c hsize n hn
          refine ⟨m, ?_, hf⟩
          rw [mem_allNodes_iff]
          exact Or.inr ⟨c, by simpa [children_mk] using hcmem, hm⟩
        · rw [if_neg hlen] at hn
          refine ⟨n, ?_, rfl, rfl, rfl⟩
          rw [mem_allNodes_iff]
          exact Or.inr ⟨c, by simpa [children_mk] using hcmem, hn⟩

/-- After `sortFileNodes`, every node's children list is pairwise ordered by the
comparator. -/
theorem sorted_allNodes_sortFileNodes :
    ∀ (N : Nat) (t : FileNode), sizeOf t ≤ N →
      ∀ n ∈ allNodes (sortFileNodes t),
        n.children.Pairwise (fun a b => nodeLEb a b = true) := by
  intro N
  induction N with
  | zero =>
    intro t ht
    cases t
    simp [FileNode.mk.sizeOf_spec] at ht
  | succ N ih =>
    intro t ht n hn
    cases t with
    | mk nm pa f sz e cs ex =>
      rw [sortFileNodes_mk] at hn
      rw [mem_allNodes_iff] at hn
      rcases hn with rfl | ⟨c', hc', hn⟩
      · simp only [children_mk]
        rw [List.pairwise_map]
        refine List.Pairwise.imp ?_
          (pairwise_sortBy nodeLEb nodeLEb_total nodeLEb_trans cs)
        intro a b hab
        have ha := sortStep_fields a
        have hb := sortStep_fields b
        rw [nodeLEb_congr a b _ _ ha.2.1 ha.1 hb.2.1 hb.1]
        exact hab
      · simp only [children_mk, List.mem_map] at hc'
        obtain ⟨c, hcs, rfl⟩ := hc'
        have hcmem : c ∈ cs := (sortBy_perm nodeLEb cs).mem_iff.mp hcs
        have hsize : sizeOf c ≤ N := by
          have := List.sizeOf_lt_of_mem hcmem
          simp [FileNode.mk.sizeOf_spec] at ht
          omega
        by_cases hlen : 0 < c.children.length
        · rw [if_pos hlen] at hn
          exact ih c hsize n hn
        · rw [if_neg hlen] at hn
          have hcnil : c.children = [] := by
            cases h : c.children
            · rfl
            · rw [h] at hlen; simp at hlen
          have : allNodes c = [c] := by
            rw [allNodes_eq, hcnil]
            rfl
          rw [this] at hn
          simp at hn
          subst hn
          rw [hcnil]
          exact List.Pairwise.nil

theorem treeExtOK_rootNode : TreeExtOK rootNode := by
  intro n hn
  rw [mem_allNodes_iff] at hn
  rcases hn with rfl | ⟨c, hc, _⟩
  · left
    rfl
  · simp [rootNode, children_mk] at hc

theorem treeExtOK_foldl (snapshots : List Snapshot) :
    TreeExtOK (snapshots.foldl
      (fun acc s => insertParts s.is_folder s.size (pathParts s.path) [] acc)
      rootNode) := by
  have : ∀ (l : List Snapshot) (t : FileNode), TreeExtOK t →
      TreeExtOK (l.foldl
        (fun acc s => insertParts s.is_folder s.size (pathParts s.path) [] acc)
        t) := by
    intro l
    induction l with
    | nil => intro t ht; exact ht
    | cons s ss ih =>
      intro t ht
      exact ih _ (treeExtOK_insertParts s.is_folder s.size (pathParts s.path) [] t ht)
  exact this snapshots rootNode treeExtOK_rootNode

/-! ## `formatBytes` (Device Vault page, lines 25–31; identical copy in the
device-detail page, lines 109–115)

```js
function formatBytes(bytes) {
  if (!bytes) return "Unknown";
  const sizes = ["B", "KB", "MB", "GB", "TB"];
  if (bytes === 0) return "0 B";
  const i = Math.floor(Math.log(bytes) / Math.log(1024));
  return Math.round(bytes / Math.pow(1024, i) * 100) / 100 + " " + sizes[i];
}
```

The argument is `number | undefined`, modelled as `Option Nat`; `!bytes` is
true for `undefined` and for `0`.  The floating-point magnitude arithmetic of
the final branch is modelled with integer arithmetic (`Nat.log`, rounded
hundredths); none of the claims depend on its exact numeric output. -/

def sizesArr : List String := ["B", "KB", "MB", "GB", "TB"]

/-- Decimal string with two rounded fractional digits, an integer model of
`Math.round(x * 100) / 100` followed by JS number-to-string coercion. -/
def decimalRepr (b : Nat) (i : Nat) : String :=
  let scaled := (b * 100 * 2 / 1024 ^ i + 1) / 2
  if scaled % 100 = 0 then toString (scaled / 100)
  else toString (scaled / 100) ++ "." ++ toString (scaled % 100)

def formatBytes (bytes : Option Nat) : String :=
  match bytes with
  | none => "Unknown"
  | some b =>
    if b = 0 then "Unknown"
    else if b = 0 then "0 B"
    else
      let i := Nat.log 1024 b
      decimalRepr b i ++ " " ++ sizesArr.getD i "undefined"

/-! ## `addEvent` (main page, lines 712–718; identical copy at 1184–1190)

```js
function addEvent(message) {
  const timestamp = new Date().toLocaleTimeString();
  eventLog = [`[${timestamp}] ${message}`, ...eventLog];
  if (eventLog.length > 20) {
    eventLog = eventLog.slice(0, 20);
  }
}
```

The wall-clock timestamp string is passed explicitly. -/

def addEvent (timestamp message : String) (eventLog : List String) :
    List String :=
  let l := ("[" ++ timestamp ++ "] " ++ message) :: eventLog
  if l.length > 20 then l.take 20 else l

/-! ## Dashboard feed (dashboard page, lines 430–483) and `ActivityFeed`
(component, line 1505 of the concatenated sources)

```ts
interface ActivityLog { id; device_id; event_type; timestamp }
let feedEvents = $derived<FeedEvent[]>(
  activities.slice(0, 10).map(a => {
    const device = devices.find(d => d.serial_number === a.device_id);
    return { id: a.id,
             deviceName: device?.name || device?.manufacturer || "Unknown Device",
             eventType: a.event_type, timestamp: a.timestamp };
  }));
const displayedEvents = $derived(events.slice(0, maxItems));
``` -/

inductive EventKind where
  | connect
  | disconnect
deriving DecidableEq

structure ActivityLog where
  id : Nat
  device_id : String
  event_type : EventKind
  timestamp : String

structure DashDevice where
  serial_number : String
  name : Option String
  manufacturer : Option String

structure FeedEvent where
  id : Nat
  deviceName : String
  eventType : EventKind
  timestamp : String
deriving DecidableEq

/-- JS `a || b` for an optional string `a`: `undefined` and `""` are falsy. -/
def jsOr (a : Option String) (b : String) : String :=
  match a with
  | none => b
  | some s => if s = "" then b else s

def feedEvents (activities : List ActivityLog) (devices : List DashDevice) :
    List FeedEvent :=
  (activities.take 10).map (fun a =>
    let device := devices.find? (fun d => decide (d.serial_number = a.device_id))
    { id := a.id
      deviceName := jsOr (device.bind DashDevice.name)
        (jsOr (device.bind DashDevice.manufacturer) "Unknown Device")
      eventType := a.event_type
      timestamp := a.timestamp })

def displayedEvents (maxItems : Nat) (events : List FeedEvent) :
    List FeedEvent :=
  events.take maxItems

/-- The label the claim describes: the matching device's name, else its
manufacturer, else `"Unknown Device"` (absence meaning `undefined` or the
empty string, JS falsiness). -/
def claimLabel (devices : List DashDevice) (deviceId : String) : String :=
  match devices.find? (fun d => decide (d.serial_number = deviceId)) with
  | none => "Unknown Device"
  | some d => jsOr d.name (jsOr d.manufacturer "Unknown Device")

/-! ## `loadFilesForActivity` / `handleTimelineSelect` (device-detail page,
lines 217–241)

```js
async function loadFilesForActivity(activityId) {
  ...
  const result = await invoke("get_device_files", { deviceId: serial });
  ...
}
function handleTimelineSelect(event) {
  selectedActivityId = event.id;
  loadFilesForActivity(event.id);
}
```

The embedding captures the request issued to the backend: the `activityId`
parameter is never placed into the invoke payload. -/

structure InvokeRequest where
  cmd : String
  deviceId : String
deriving DecidableEq

def loadFilesForActivityRequest (serial : String) (activityId : Nat) :
    InvokeRequest :=
  { cmd := "get_device_files", deviceId := serial }

def handleTimelineSelectRequest (serial : String) (eventId : Nat) :
    InvokeRequest :=
  loadFilesForActivityRequest serial eventId

/-! ## Identity Reconciler and Presence State Machine (spec-modelled)

Modelled from the spec: the Rust core (`src-tauri/src/usb_monitor.rs`,
`src-tauri/src/db.rs`) is not present under `src/`; only the README describes
it.  The model follows spec §4.3 (Identity Reconciler), §4.4 (Presence State
Machine) and §4.6 (Persistent Store upsert), and the README's "Fusión de
Datos" (`DISK_E_16GB`-style synthetic id from mount point and total size). -/

/-- A mounted removable volume as reported by the Volume Enumerator. -/
structure Volume where
  mount : String
  capacity : Nat

/-- A hardware descriptor as reported by the Hardware Descriptor Reader. -/
structure Descriptor where
  vendor : Nat
  product : Nat
  serial : Option String

/-- Modelled from the spec: deterministic synthetic fallback identity from
mount point and total capacity (README: "un ID único basado en el punto de
montaje y el tamaño total del disco (`DISK_E_16GB`)"). -/
def syntheticId (mount : String) (capacity : Nat) : String :=
  "DISK_" ++ mount ++ "_" ++ toString capacity

/-- Modelled from the spec (§4.3 step 2): composite identity when a matching
descriptor carries no serial. -/
def compositeId (vendor product capacity : Nat) : String :=
  toString vendor ++ ":" ++ toString product ++ ":" ++ toString capacity

/-- Modelled from the spec (§4.3): the canonical identity of one visible
volume, given the matched hardware descriptor when available. -/
def canonicalIdentity (v : Volume) : Option Descriptor → String
  | some d =>
    match d.serial with
    | some s => s
    | none => compositeId d.vendor d.product v.capacity
  | none => syntheticId v.mount v.capacity

/-- One audit-ledger row (spec §3 `ActivityRecord`; timestamps are modelled
as naturals). -/
structure ActivityRecord where
  device_id : String
  event_type : EventKind
  timestamp : Nat
deriving DecidableEq

/-- Modelled from the spec (§4.4, §4.6): the state machine's connected set,
the device registry (identity keys of the `devices` table rows) and the
append-only activity ledger. -/
structure SMState where
  connectedIds : List String
  registry : List String
  log : List ActivityRecord

def initState : SMState := ⟨[], [], []⟩

/-- Store upsert of one device row (spec §3: created on first reconciliation
of an unseen identity key, updated in place afterwards — the key set gains
at most the new key). -/
def upsert (reg : List String) (id : String) : List String :=
  if reg.contains id then reg else reg ++ [id]

/-- Modelled from the spec (§4.4): one detection-cycle tick, given the set of
identities currently resolved by the reconciler and the tick timestamp.
Connected identities that disappeared emit DISCONNECT; visible identities
that were not connected emit CONNECT and are upserted into the registry;
identities present while already connected are debounced. -/
def pollStep (present : List String) (t : Nat) (s : SMState) : SMState :=
  let discs := s.connectedIds.filter (fun id => ¬ present.contains id)
  let news := present.filter (fun id => ¬ s.connectedIds.contains id)
  { connectedIds := s.connectedIds.filter (fun id => present.contains id) ++ news
    registry := news.foldl upsert s.registry
    log := s.log ++ discs.map (fun id => ⟨id, .disconnect, t⟩)
      ++ news.map (fun id => ⟨id, .connect, t⟩) }

/-- Run the detection loop over a whole poll sequence. -/
def runPolls (polls : List (List String × Nat)) : SMState :=
  polls.foldl (fun s p => pollStep p.1 p.2 s) initState

/-- Strict CONNECT/DISCONNECT alternation checker: `chainRun b l` consumes
the per-device event sequence `l` starting from connectivity `b` and returns
the final connectivity, or `none` as soon as the sequence breaks strict
alternation. -/
def chainRun : Bool → List EventKind → Option Bool
  | b, [] => some b
  | false, .connect :: rest => chainRun true rest
  | true, .disconnect :: rest => chainRun false rest
  | _, _ => none

/-- Events of one device, in ledger order. -/
def eventsOf (id : String) (log : List ActivityRecord) : List ActivityRecord :=
  log.filter (fun r => decide (r.device_id = id))

theorem chainRun_append (l1 l2 : List EventKind) :
    ∀ b, chainRun b (l1 ++ l2) =
      (chainRun b l1).bind (fun b' => chainRun b' l2) := by
  induction l1 with
  | nil => intro b; simp [chainRun]
  | cons e rest ih =>
    intro b
    cases b <;> cases e <;> simp [chainRun, ih]

theorem eventsOf_append (id : String) (l1 l2 : List ActivityRecord) :
    eventsOf id (l1 ++ l2) = eventsOf id l1 ++ eventsOf id l2 :=
  List.filter_append _ _

theorem eventsOf_map_of_not_mem (id : String) (f : String → ActivityRecord)
    (hf : ∀ x, (f x).device_id = x) (l : List String) (h : id ∉ l) :
    eventsOf id (l.map f) = [] := by
  induction l with
  | nil => rfl
  | cons x xs ih =>
    simp only [List.mem_cons, not_or] at h
    simp only [List.map_cons, eventsOf, List.filter_cons]
    rw [show (decide ((f x).device_id = id)) = false by
      simp [hf x]; exact fun hh => h.1 hh.symm]
    exact ih h.2

theorem eventsOf_map_nodup (id : String) (f : String → ActivityRecord)
    (hf : ∀ x, (f x).device_id = x) (l : List String) (hl : l.Nodup) :
    eventsOf id (l.map f) = if id ∈ l then [f id] else [] := by
  induction l with
  | nil => rfl
  | cons x xs ih =>
    rw [List.nodup_cons] at hl
    simp only [List.map_cons, eventsOf, List.filter_cons]
    by_cases hx : x = id
    · subst hx
      rw [show (decide ((f x).device_id = x)) = true by simp [hf x]]
      have : eventsOf x (xs.map f) = [] :=
        eventsOf_map_of_not_mem x f hf xs hl.1
      simp only [eventsOf] at this
      rw [this]
      simp
    · rw [show (decide ((f x).device_id = id)) = false by
        simp [hf x]; exact hx]
      have h2 := ih hl.2
      simp only [eventsOf] at h2
      rw [if_neg (by simp)]
      rw [h2]
      by_cases hmem : id ∈ xs
      · rw [if_pos hmem, if_pos (List.mem_cons.mpr (Or.inr hmem))]
      · rw [if_neg hmem, if_neg (by
          simp only [List.mem_cons, not_or]
          exact ⟨fun h => hx h.symm, hmem⟩)]

  

theorem contains_eq_decide_mem (l : List String) (x : String) :
    l.contains x = decide (x ∈ l) := List.elem_eq_mem x l

theorem upsert_nodup (reg : List String) (id : String) (h : reg.Nodup) :
    (upsert reg id).Nodup := by
  unfold upsert
  split
  · exact h
  · rename_i hc
    rw [contains_eq_decide_mem] at hc
    simp only [decide_eq_true_eq] at hc
    simp [List.nodup_append, h, hc]

theorem mem_upsert_left (reg : List String) (id x : String) (h : x ∈ reg) :
    x ∈ upsert reg id := by
  unfold upsert
  split
  · exact h
  · exact List.mem_append.mpr (Or.inl h)

theorem mem_upsert_self (reg : List String) (id : String) :
    id ∈ upsert reg id := by
  unfold upsert
  split
  · rename_i hc
    rw [contains_eq_decide_mem] at hc
    simpa using hc
  · simp

theorem foldlUpsert_nodup (l : List String) (reg : List String)
    (h : reg.Nodup) : (l.foldl upsert reg).Nodup := by
  induction l generalizing reg with
  | nil => exact h
  | cons x xs ih => exact ih (upsert reg x) (upsert_nodup reg x h)

theorem mem_foldlUpsert_left (l : List String) (reg : List String)
    (x : String) (h : x ∈ reg) : x ∈ l.foldl upsert reg := by
  induction l generalizing reg with
  | nil => exact h
  | cons y ys ih => exact ih (upsert reg y) (mem_upsert_left reg y x h)

theorem mem_foldlUpsert_of_mem (l : List String) (reg : List String)
    (x : String) (h : x ∈ l) : x ∈ l.foldl upsert reg := by
  induction l generalizing reg with
  | nil => simp at h
  | cons y ys ih =>
    rcases List.mem_cons.mp h with rfl | h'
    · exact mem_foldlUpsert_left ys (upsert reg x) x (mem_upsert_self reg x)
    · exact ih (upsert reg y) h'

/-- The state-machine invariant after processing polls whose timestamps are
all at most `T`: per-device strict alternation consistent with the connected
set, duplicate-free connected set and registry, time-ordered bounded ledger,
and every connected identity registered. -/
def Inv (s : SMState) (T : Nat) : Prop :=
  (∀ id, chainRun false ((eventsOf id s.log).map ActivityRecord.event_type)
      = some (s.connectedIds.contains id))
  ∧ s.connectedIds.Nodup
  ∧ s.log.Pairwise (fun a b => a.timestamp ≤ b.timestamp)
  ∧ (∀ r ∈ s.log, r.timestamp ≤ T)
  ∧ (∀ id ∈ s.connectedIds, id ∈ s.registry)
  ∧ s.registry.Nodup

theorem inv_init : Inv initState 0 := by
  refine ⟨fun id => rfl, List.nodup_nil, List.Pairwise.nil, ?_, ?_, List.nodup_nil⟩
  · intro r hr
    simp [initState] at hr
  · intro id hid
    simp [initState] at hid

theorem pairwise_const_ts (l : List String) (k : EventKind) (t : Nat) :
    (l.map (fun id => (⟨id, k, t⟩ : ActivityRecord))).Pairwise
      (fun a b => a.timestamp ≤ b.timestamp) := by
  induction l with
  | nil => exact List.Pairwise.nil
  | cons x xs ih =>
    rw [List.map_cons, List.pairwise_cons]
    refine ⟨?_, ih⟩
    intro b hb
    simp only [List.mem_map] at hb
    obtain ⟨y, _, rfl⟩ := hb
    exact le_refl t

theorem inv_pollStep (present : List String) (t T : Nat) (s : SMState)
    (hs : Inv s T) (hpres : present.Nodup) (hT : T ≤ t) :
    Inv (pollStep present t s) t := by
  obtain ⟨halt, hcn, hpw, hbound, hsub, hreg⟩ := hs
  have hdnodup : (s.connectedIds.filter
      (fun id => ¬ present.contains id)).Nodup := hcn.filter _
  have hnnodup : (present.filter
      (fun id => ¬ s.connectedIds.contains id)).Nodup := hpres.filter _
  have hmem_discs : ∀ id, id ∈ s.connectedIds.filter
      (fun id => ¬ present.contains id) ↔
      id ∈ s.connectedIds ∧ id ∉ present := by
    intro id
    rw [List.mem_filter]
    simp [contains_eq_decide_mem]
  have hmem_news : ∀ id, id ∈ present.filter
      (fun id => ¬ s.connectedIds.contains id) ↔
      id ∈ present ∧ id ∉ s.connectedIds := by
    intro id
    rw [List.mem_filter]
    simp [contains_eq_decide_mem]
  have hmem_conn' : ∀ id,
      (id ∈ s.connectedIds.filter (fun id => present.contains id) ++
        present.filter (fun id => ¬ s.connectedIds.contains id)) ↔
        id ∈ present := by
    intro id
    rw [List.mem_append, List.mem_filter, hmem_news id]
    simp only [contains_eq_decide_mem, decide_eq_true_eq]
    constructor
    · rintro (⟨_, h⟩ | ⟨h, _⟩) <;> exact h
    · intro h
      by_cases hc : id ∈ s.connectedIds
      · exact Or.inl ⟨hc, h⟩
      · exact Or.inr ⟨h, hc⟩
  refine ⟨?_, ?_, ?_, ?_, ?_, ?_⟩
  · -- alternation, consistent with the new connected set
    intro id
    simp only [pollStep]
    have hD := eventsOf_map_nodup id
      (fun id => ⟨id, .disconnect, t⟩) (fun _ => rfl) _ hdnodup
    have hN := eventsOf_map_nodup id
      (fun id => ⟨id, .connect, t⟩) (fun _ => rfl) _ hnnodup
    rw [eventsOf_append, eventsOf_append, hD, hN, List.map_append,
      List.map_append, chainRun_append, chainRun_append, halt id,
      Option.some_bind]
    have hcontains' :
        ((s.connectedIds.filter (fun id => present.contains id) ++
          present.filter (fun id => ¬ s.connectedIds.contains id)).contains
          id) = decide (id ∈ present) := by
      rw [contains_eq_decide_mem]
      by_cases h : id ∈ present
      · simp [h, (hmem_conn' id).mpr h]
      · have h2 : id ∉ s.connectedIds.filter (fun id => present.contains id) ++
            present.filter (fun id => ¬ s.connectedIds.contains id) :=
          fun hmem => h ((hmem_conn' id).mp hmem)
        simp [h, h2]
    rw [hcontains']
    by_cases hc : id ∈ s.connectedIds <;> by_cases hp : id ∈ present
    · rw [if_neg (fun h => ((hmem_discs id).mp h).2 hp),
        if_neg (fun h => ((hmem_news id).mp h).2 hc)]
      simp [chainRun, contains_eq_decide_mem, hc, hp]
    · rw [if_pos ((hmem_discs id).mpr ⟨hc, hp⟩),
        if_neg (fun h => hp ((hmem_news id).mp h).1)]
      simp [chainRun, contains_eq_decide_mem, hc, hp]
    · rw [if_neg (fun h => hc ((hmem_discs id).mp h).1),
        if_pos ((hmem_news id).mpr ⟨hp, hc⟩)]
      simp [chainRun, contains_eq_decide_mem, hc, hp]
    · rw [if_neg (fun h => hc ((hmem_discs id).mp h).1),
        if_neg (fun h => hp ((hmem_news id).mp h).1)]
      simp [chainRun, contains_eq_decide_mem, hc, hp]
  · -- connected set duplicate-free
    simp only [pollStep]
    refine List.Nodup.append (hcn.filter _) hnnodup ?_
    intro x hx hx'
    have h1 := (List.mem_filter.mp hx).1
    exact ((hmem_news x).mp hx').2 h1
  · -- ledger time-ordered
    simp only [pollStep]
    rw [List.pairwise_append]
    refine ⟨?_, pairwise_const_ts _ _ _, ?_⟩
    · rw [List.pairwise_append]
      refine ⟨hpw, pairwise_const_ts _ _ _, ?_⟩
      intro a ha b hb
      have h1 := hbound a ha
      simp only [List.mem_map] at hb
      obtain ⟨_, _, rfl⟩ := hb
      show a.timestamp ≤ t
      omega
    · intro a ha b hb
      simp only [List.mem_map] at hb
      obtain ⟨_, _, rfl⟩ := hb
      show a.timestamp ≤ t
      rcases List.mem_append.mp ha with h | h
      · have := hbound a h
        omega
      · simp only [List.mem_map] at h
        obtain ⟨_, _, rfl⟩ := h
        exact le_refl t
  · -- ledger bounded by t
    simp only [pollStep]
    intro r hr
    rcases List.mem_append.mp hr with hr | hr
    · rcases List.mem_append.mp hr with hr | hr
      · exact le_trans (hbound r hr) hT
      · simp only [List.mem_map] at hr
        obtain ⟨_, _, rfl⟩ := hr
        exact le_refl t
    · simp only [List.mem_map] at hr
      obtain ⟨_, _, rfl⟩ := hr
      exact le_refl t
  · -- connected ⊆ registry
    simp only [pollStep]
    intro id hid
    rcases List.mem_append.mp hid with h | h
    · exact mem_foldlUpsert_left _ s.registry id
        (hsub id (List.mem_filter.mp h).1)
    · exact mem_foldlUpsert_of_mem _ s.registry id h
  · -- registry duplicate-free
    simp only [pollStep]
    exact foldlUpsert_nodup _ s.registry hreg

theorem inv_foldl :
    ∀ (polls : List (List String × Nat)) (s : SMState) (T : Nat),
      Inv s T → (∀ p ∈ polls, p.1.Nodup) → (∀ p ∈ polls, T ≤ p.2) →
      polls.Pairwise (fun a b => a.2 ≤ b.2) →
      ∃ T', Inv (polls.foldl (fun s p => pollStep p.1 p.2 s) s) T' := by
  intro polls
  induction polls with
  | nil => intro s T hs _ _ _; exact ⟨T, hs⟩
  | cons q ps ih =>
    intro s T hs hnd hge hpw
    rw [List.foldl_cons]
    rw [List.pairwise_cons] at hpw
    refine ih (pollStep q.1 q.2 s) q.2
      (inv_pollStep q.1 q.2 T s hs (hnd q (List.mem_cons_self q ps)) (hge q (List.mem_cons_self q ps)))
      (fun p hp => hnd p (List.mem_cons_of_mem q hp))
      (fun p hp => hpw.1 p hp) hpw.2

theorem inv_runPolls (polls : List (List String × Nat))
    (hnodup : ∀ p ∈ polls, p.1.Nodup)
    (hmono : polls.Pairwise (fun a b => a.2 ≤ b.2)) :
    ∃ T, Inv (runPolls polls) T :=
  inv_foldl polls initState 0 inv_init hnodup (fun _ _ => Nat.zero_le _) hmono

theorem log_prefix_pollStep (present : List String) (t : Nat) (s : SMState) :
    s.log <+: (pollStep present t s).log := by
  simp only [pollStep]
  exact (List.prefix_append _ _).trans
    ((List.prefix_append _ _).trans (List.prefix_rfl))
    |>.trans (List.prefix_rfl)

theorem log_prefix_foldl :
    ∀ (ps : List (List String × Nat)) (s : SMState),
      s.log <+: (ps.foldl (fun s p => pollStep p.1 p.2 s) s).log := by
  intro ps
  induction ps with
  | nil => intro s; exact List.prefix_rfl
  | cons q qs ih =>
    intro s
    rw [List.foldl_cons]
    exact (log_prefix_pollStep q.1 q.2 s).trans (ih (pollStep q.1 q.2 s))

theorem runPolls_log_monotone (polls : List (List String × Nat)) (k : Nat) :
    (runPolls (polls.take k)).log <+: (runPolls polls).log := by
  conv_rhs => rw [runPolls, ← List.take_append_drop k polls, List.foldl_append]
  exact log_prefix_foldl (polls.drop k) (runPolls (polls.take k))

theorem registry_sub_foldl :
    ∀ (ps : List (List String × Nat)) (s : SMState) (x : String),
      x ∈ s.registry → x ∈ (ps.foldl (fun s p => pollStep p.1 p.2 s) s).registry := by
  intro ps
  induction ps with
  | nil => intro s x h; exact h
  | cons q qs ih =>
    intro s x h
    rw [List.foldl_cons]
    refine ih (pollStep q.1 q.2 s) x ?_
    simp only [pollStep]
    exact mem_foldlUpsert_left _ s.registry x h

theorem mem_registry_pollStep (present : List String) (t : Nat) (s : SMState)
    (hsub : ∀ id ∈ s.connectedIds, id ∈ s.registry) (id : String)
    (hid : id ∈ present) : id ∈ (pollStep present t s).registry := by
  simp only [pollStep]
  by_cases hc : id ∈ s.connectedIds
  · exact mem_foldlUpsert_left _ s.registry id (hsub id hc)
  · refine mem_foldlUpsert_of_mem _ s.registry id ?_
    rw [List.mem_filter]
    refine ⟨hid, ?_⟩
    simp [contains_eq_decide_mem, hc]

theorem present_mem_registry :
    ∀ (polls : List (List String × Nat)) (s : SMState) (T : Nat),
      Inv s T → (∀ p ∈ polls, p.1.Nodup) → (∀ p ∈ polls, T ≤ p.2) →
      polls.Pairwise (fun a b => a.2 ≤ b.2) →
      ∀ p ∈ polls, ∀ id ∈ p.1,
        id ∈ (polls.foldl (fun s p => pollStep p.1 p.2 s) s).registry := by
  intro polls
  induction polls with
  | nil => intro s T _ _ _ _ p hp; simp at hp
  | cons q ps ih =>
    intro s T hs hnd hge hpw p hp id hid
    rw [List.foldl_cons]
    rw [List.pairwise_cons] at hpw
    rcases List.mem_cons.mp hp with rfl | hp'
    · exact registry_sub_foldl ps (pollStep p.1 p.2 s) id
        (mem_registry_pollStep p.1 p.2 s hs.2.2.2.2.1 id hid)
    · exact ih (pollStep q.1 q.2 s) q.2
        (inv_pollStep q.1 q.2 T s hs (hnd q (List.mem_cons_self q ps))
          (hge q (List.mem_cons_self q ps)))
        (fun r hr => hnd r (List.mem_cons_of_mem q hr))
        (fun r hr => hpw.1 r hr) hpw.2 p hp' id hid

/-! # Claims -/

/-- Claim C1: for every sequence of connect/disconnect polls, each physically
present volume yields exactly one Device row with a stable identity key: the
synthetic fallback identity is a deterministic function of the mount point
and capacity pair (stable across polls and process restarts, being a pure
function of its inputs); a hardware serial always yields that serial as the
identity; the registry never holds two rows for one identity key; and every
identity present in any poll ends up registered.  (Spec-modelled: the Rust
reconciler/state machine is not under `src/`.) -/
theorem claim_C1_identity_stability :
    (∀ v v' : Volume, v.mount = v'.mount → v.capacity = v'.capacity →
      canonicalIdentity v none = canonicalIdentity v' none) ∧
    (∀ (v v' : Volume) (d d' : Descriptor) (sn : String),
      d.serial = some sn → d'.serial = some sn →
      canonicalIdentity v (some d) = canonicalIdentity v' (some d')) ∧
    (∀ polls : List (List String × Nat), (runPolls polls).registry.Nodup) ∧
    (∀ polls : List (List String × Nat),
      (∀ p ∈ polls, p.1.Nodup) → polls.Pairwise (fun a b => a.2 ≤ b.2) →
      ∀ p ∈ polls, ∀ id ∈ p.1, id ∈ (runPolls polls).registry) := by
  refine ⟨?_, ?_, ?_, ?_⟩
  · intro v v' h1 h2
    simp [canonicalIdentity, syntheticId, h1, h2]
  · intro v v' d d' sn h1 h2
    simp [canonicalIdentity, h1, h2]
  · intro polls
    have : ∀ (ps : List (List String × Nat)) (s : SMState),
        s.registry.Nodup →
        (ps.foldl (fun s p => pollStep p.1 p.2 s) s).registry.Nodup := by
      intro ps
      induction ps with
      | nil => intro s h; exact h
      | cons q qs ih =>
        intro s h
        rw [List.foldl_cons]
        refine ih (pollStep q.1 q.2 s) ?_
        simp only [pollStep]
        exact foldlUpsert_nodup _ s.registry h
    exact this polls initState List.nodup_nil
  · intro polls hnd hpw p hp id hid
    exact present_mem_registry polls initState 0 inv_init hnd
      (fun _ _ => Nat.zero_le _) hpw p hp id hid

/-- Witness for C1 at Scenario A/B-style concrete inputs: the fallback
identity of the volume mounted at `E:` with 16 GB capacity is reproducible,
serial `SN123` resolves to the same identity from different volumes, and one
poll registers the identity exactly once. -/
theorem claim_C1_witness :
    canonicalIdentity ⟨"E:", 16000000000⟩ none =
      canonicalIdentity ⟨"E:", 16000000000⟩ none ∧
    canonicalIdentity ⟨"E:", 16000000000⟩ (some ⟨0x1234, 0x5678, some "SN123"⟩) =
      canonicalIdentity ⟨"F:", 8000000000⟩ (some ⟨1, 2, some "SN123"⟩) ∧
    (runPolls [(["SN123"], 1)]).registry.Nodup ∧
    "SN123" ∈ (runPolls [(["SN123"], 1)]).registry :=
  ⟨claim_C1_identity_stability.1 _ _ rfl rfl,
   claim_C1_identity_stability.2.1 _ _ _ _ "SN123" rfl rfl,
   claim_C1_identity_stability.2.2.1 _,
   claim_C1_identity_stability.2.2.2 [(["SN123"], 1)]
     (by simp) (by simp) (["SN123"], 1) (by simp) "SN123" (by simp)⟩

/-- Claim C2: on the Scenario C snapshot list (folder entry `docs` of size 0
and file entry `docs/a.txt` of size 1024), `buildFileTree` returns a root
whose only child is a folder node `docs` of size 0, whose only child in turn
is a file node `a.txt` with `is_folder` false, size 1024 and extension
`txt`. -/
theorem claim_C2_scenarioC_tree :
    buildFileTree scenarioC =
      .mk "Root".toList "/".toList true 0 none
        [.mk "docs".toList "/docs".toList true 0 none
          [.mk "a.txt".toList "/docs/a.txt".toList false 1024
            (some "txt".toList) [] false]
          false] true := by
  have h : scenarioC.foldl
      (fun acc s => insertParts s.is_folder s.size (pathParts s.path) [] acc)
      rootNode =
      .mk "Root".toList "/".toList true 0 none
        [.mk "docs".toList "/docs".toList true 0 none
          [.mk "a.txt".toList "/docs/a.txt".toList false 1024
            (some "txt".toList) [] false]
          false] true := by rfl
  rw [buildFileTree, h]
  simp [sortFileNodes_mk, sortBy, insertSorted, children_mk]

/-- The two permutations of one snapshot list on which `buildFileTree`
disagrees: inserting `x` (a file of size 5) before `x/y` keeps `x` a file of
size 5; inserting `x/y` first creates `x` as an intermediate folder of size 0
and the later explicit `x` row is ignored. -/
def permExA : List Snapshot := [⟨"x".toList, false, 5⟩, ⟨"x/y".toList, true, 0⟩]

def permExB : List Snapshot := [⟨"x/y".toList, true, 0⟩, ⟨"x".toList, false, 5⟩]

theorem buildFileTree_permExA :
    buildFileTree permExA =
      .mk "Root".toList "/".toList true 0 none
        [.mk "x".toList "/x".toList false 5 none
          [.mk "y".toList "/x/y".toList true 0 none [] false]
          false] true := by
  have h : permExA.foldl
      (fun acc s => insertParts s.is_folder s.size (pathParts s.path) [] acc)
      rootNode =
      .mk "Root".toList "/".toList true 0 none
        [.mk "x".toList "/x".toList false 5 none
          [.mk "y".toList "/x/y".toList true 0 none [] false]
          false] true := by rfl
  rw [buildFileTree, h]
  simp [sortFileNodes_mk, sortBy, insertSorted, children_mk]

theorem buildFileTree_permExB :
    buildFileTree permExB =
      .mk "Root".toList "/".toList true 0 none
        [.mk "x".toList "/x".toList true 0 none
          [.mk "y".toList "/x/y".toList true 0 none [] false]
          false] true := by
  have h : permExB.foldl
      (fun acc s => insertParts s.is_folder s.size (pathParts s.path) [] acc)
      rootNode =
      .mk "Root".toList "/".toList true 0 none
        [.mk "x".toList "/x".toList true 0 none
          [.mk "y".toList "/x/y".toList true 0 none [] false]
          false] true := by rfl
  rw [buildFileTree, h]
  simp [sortFileNodes_mk, sortBy, insertSorted, children_mk]

theorem buildFileTree_perm_sensitive :
    List.Perm permExA permExB ∧
    buildFileTree permExA ≠ buildFileTree permExB := by
  constructor
  · exact List.Perm.swap _ _ _
  · rw [buildFileTree_permExA, buildFileTree_permExB]
    intro h
    have := congrArg (fun t => t.children.map FileNode.is_folder) h
    simp [children_mk, FileNode.is_folder] at this

/-- Claim C3 as stated is false: `buildFileTree` is not invariant under
permutations of the snapshot list.  The two-element lists `permExA` and
`permExB` are permutations of each other, yet produce different trees. -/
theorem claim_C3_counterexample :
    List.Perm permExA permExB ∧
    buildFileTree permExA ≠ buildFileTree permExB :=
  buildFileTree_perm_sensitive

/-- Claim C3 (amended): `buildFileTree` is a pure, deterministic
transformation — the same snapshot list always yields the same tree — but
the result is not order-independent: permuting the rows can change node
metadata when one entry's path is an ancestor prefix of another entry's
path. -/
theorem claim_C3_amended_determinism :
    (∀ l : List Snapshot, buildFileTree l = buildFileTree l) ∧
    ¬ (∀ l l' : List Snapshot, List.Perm l l' →
        buildFileTree l = buildFileTree l') :=
  ⟨fun _ => rfl,
   fun h => buildFileTree_perm_sensitive.2
     (h _ _ buildFileTree_perm_sensitive.1)⟩

/-- Claim C4 is a code bug: `loadFilesForActivity(activityId)` never places
the activity id in the backend request — `handleTimelineSelect` passes the
selected timeline event's id, but the issued `get_device_files` invocation
contains only the device serial, so two distinct selected activity ids issue
the identical request (and hence display the same, most recent, entry set),
contradicting the claim that the request identifies the selected session. -/
theorem claim_C4_request_ignores_activity :
    handleTimelineSelectRequest "SN123" 1 =
      handleTimelineSelectRequest "SN123" 2 ∧
    handleTimelineSelectRequest "SN123" 1 =
      { cmd := "get_device_files", deviceId := "SN123" } :=
  ⟨rfl, rfl⟩

/-- Claim C5: over any poll sequence with non-decreasing tick timestamps,
the activity ledger is append-only (the ledger after any prefix of the polls
is a list prefix of the final ledger), per-device timestamps are
monotonically non-decreasing, and per-device events strictly alternate:
`chainRun` starting from disconnected succeeds (returns `some`), which rules
out a CONNECT followed by another CONNECT without an intervening DISCONNECT.
(Spec-modelled: the Rust presence state machine is not under `src/`.) -/
theorem claim_C5_activity_ledger (polls : List (List String × Nat))
    (hnodup : ∀ p ∈ polls, p.1.Nodup)
    (hmono : polls.Pairwise (fun a b => a.2 ≤ b.2)) :
    (∀ id, ∃ b, chainRun false
        ((eventsOf id (runPolls polls).log).map ActivityRecord.event_type)
        = some b) ∧
    (∀ id, (eventsOf id (runPolls polls).log).Pairwise
        (fun a b => a.timestamp ≤ b.timestamp)) ∧
    (∀ k, (runPolls (polls.take k)).log <+: (runPolls polls).log) := by
  obtain ⟨T, halt, _, hpw, _, _, _⟩ := inv_runPolls polls hnodup hmono
  refine ⟨?_, ?_, ?_⟩
  · intro id
    exact ⟨(runPolls polls).connectedIds.contains id, halt id⟩
  · intro id
    exact List.Pairwise.filter _ hpw
  · intro k
    exact runPolls_log_monotone polls k

/-- Witness for C5: a device that connects at tick 1 and disconnects at
tick 2. -/
theorem claim_C5_witness :
    (∀ id, ∃ b, chainRun false
        ((eventsOf id (runPolls [(["A"], 1), ([], 2)]).log).map
          ActivityRecord.event_type) = some b) ∧
    (∀ id, (eventsOf id (runPolls [(["A"], 1), ([], 2)]).log).Pairwise
        (fun a b => a.timestamp ≤ b.timestamp)) ∧
    (∀ k, (runPolls ([(["A"], 1), ([], 2)].take k)).log <+:
        (runPolls [(["A"], 1), ([], 2)]).log) :=
  claim_C5_activity_ledger [(["A"], 1), ([], 2)] (by simp) (by simp)

/-- Claim C6: in every tree built by `buildFileTree`, a node carries a
defined extension only if it is a file node, the extension is the lowercased
suffix of the node's name after its last dot, and nodes with no dot or a
leading dot in the name (and all folder nodes) carry no extension. -/
theorem claim_C6_extension_invariant (snapshots : List Snapshot)
    (n : FileNode) (hn : n ∈ allNodes (buildFileTree snapshots)) :
    (n.is_folder = true → n.extension = none) ∧
    (∀ e, n.extension = some e → n.is_folder = false ∧
      ∃ pre suf, n.name = pre ++ '.' :: suf ∧ '.' ∉ suf ∧
        e = suf.map Char.toLower) ∧
    (('.' ∉ n.name ∨ startsWithDot n.name = true) → n.extension = none) := by
  rw [buildFileTree] at hn
  obtain ⟨m, hm, hname, hfold, hext⟩ :=
    mem_allNodes_sortFileNodes (sizeOf (snapshots.foldl
      (fun acc s => insertParts s.is_folder s.size (pathParts s.path) [] acc)
      rootNode)) _ le_rfl n hn
  have hok : ExtOK m := treeExtOK_foldl snapshots m hm
  refine ⟨?_, ?_, ?_⟩
  · intro hf
    rcases hok with h | ⟨h1, _⟩
    · rw [hext, h]
    · rw [hfold, h1] at hf
      cases hf
  · intro e he
    rcases hok with h | ⟨h1, h2⟩
    · rw [hext, h] at he
      cases he
    · refine ⟨by rw [hfold, h1], ?_⟩
      have hge : getFileExtension m.name = some e := by
        rw [← h2, ← hext, he]
      obtain ⟨pre, suf, heq, hnm, hel⟩ := getFileExtension_eq_some m.name e hge
      exact ⟨pre, suf, by rw [hname, heq], hnm, hel⟩
  · intro hcase
    rcases hok with h | ⟨_, h2⟩
    · rw [hext, h]
    · rcases hcase with hnd | hdot
      · rw [hext, h2, getFileExtension_of_no_dot m.name (by rw [← hname]; exact hnd)]
      · rw [hext, h2, getFileExtension_of_dotfile m.name (by rw [← hname]; exact hdot)]

/-- Witness for C6 at the Scenario C tree's root node. -/
theorem claim_C6_witness :
    buildFileTree scenarioC ∈ allNodes (buildFileTree scenarioC) ∧
    (((buildFileTree scenarioC).is_folder = true →
        (buildFileTree scenarioC).extension = none) ∧
      (∀ e, (buildFileTree scenarioC).extension = some e →
        (buildFileTree scenarioC).is_folder = false ∧
        ∃ pre suf, (buildFileTree scenarioC).name = pre ++ '.' :: suf ∧
          '.' ∉ suf ∧ e = suf.map Char.toLower) ∧
      (('.' ∉ (buildFileTree scenarioC).name ∨
          startsWithDot (buildFileTree scenarioC).name = true) →
        (buildFileTree scenarioC).extension = none)) :=
  ⟨self_mem_allNodes _,
   claim_C6_extension_invariant scenarioC _ (self_mem_allNodes _)⟩

/-- Claim C7: the dashboard feed derives exactly the first
`min(10, length)` rows of the returned history in order, labels each row
with the matching device's name, else its manufacturer, else
`"Unknown Device"` (JS falsiness: a missing device, a missing/empty name or
manufacturer fall through), and the `ActivityFeed` component displays at
most `maxItems` events. -/
theorem claim_C7_feed (activities : List ActivityLog)
    (devices : List DashDevice) (maxItems : Nat) (events : List FeedEvent) :
    feedEvents activities devices =
      (activities.take (min 10 activities.length)).map (fun a =>
        { id := a.id, deviceName := claimLabel devices a.device_id,
          eventType := a.event_type, timestamp := a.timestamp }) ∧
    (feedEvents activities devices).length = min 10 activities.length ∧
    (displayedEvents maxItems events).length ≤ maxItems := by
  refine ⟨?_, ?_, ?_⟩
  · have htake : activities.take (min 10 activities.length) =
        activities.take 10 := by
      rw [List.take_eq_take]
      omega
    rw [htake, feedEvents]
    refine List.map_congr_left ?_
    intro a _
    simp only [claimLabel]
    cases devices.find? (fun d => decide (d.serial_number = a.device_id)) with
    | none => simp [jsOr]
    | some d => simp
  · rw [feedEvents, List.length_map, List.length_take]
  · rw [displayedEvents]
    exact List.length_take_le maxItems events

/-- Claim C8: in every tree returned by `buildFileTree`, each node's
children list is pairwise ordered with folders before files and, within
equal folder flags, ascending (modelled `localeCompare`) name order; this
holds at every depth since it holds at every node of the tree. -/
theorem claim_C8_children_sorted (snapshots : List Snapshot) (n : FileNode)
    (hn : n ∈ allNodes (buildFileTree snapshots)) :
    n.children.Pairwise (fun a b =>
      (a.is_folder = true ∧ b.is_folder = false) ∨
      (a.is_folder = b.is_folder ∧ lexCmp a.name b.name ≤ 0)) := by
  rw [buildFileTree] at hn
  have h := sorted_allNodes_sortFileNodes (sizeOf (snapshots.foldl
    (fun acc s => insertParts s.is_folder s.size (pathParts s.path) [] acc)
    rootNode)) _ le_rfl n hn
  refine h.imp ?_
  intro a b hab
  simp only [nodeLEb, decide_eq_true_eq, cmpNodes] at hab
  by_cases ha : a.is_folder = true <;> by_cases hb : b.is_folder = true
  · rw [if_neg (by simp [hb]), if_neg (by simp [ha])] at hab
    right
    rw [ha, hb]
    exact ⟨rfl, hab⟩
  · left
    exact ⟨ha, by simpa using hb⟩
  · rw [if_neg (by simp [ha]), if_pos ⟨by simpa using ha, hb⟩] at hab
    cases hab
  · rw [if_neg (by simp [ha]), if_neg (by simp [hb])] at hab
    right
    rw [show a.is_folder = false by simpa using ha,
      show b.is_folder = false by simpa using hb]
    exact ⟨rfl, hab⟩

/-- Witness for C8 at the Scenario C tree's root node. -/
theorem claim_C8_witness :
    buildFileTree scenarioC ∈ allNodes (buildFileTree scenarioC) ∧
    (buildFileTree scenarioC).children.Pairwise (fun a b =>
      (a.is_folder = true ∧ b.is_folder = false) ∨
      (a.is_folder = b.is_folder ∧ lexCmp a.name b.name ≤ 0)) :=
  ⟨self_mem_allNodes _,
   claim_C8_children_sorted scenarioC _ (self_mem_allNodes _)⟩

theorem append_space_ne_Unknown (s1 s2 : String) :
    s1 ++ " " ++ s2 ≠ "Unknown" := by
  intro h
  have hmem : ' ' ∈ (s1 ++ " " ++ s2).data := by
    rw [show (s1 ++ " " ++ s2).data = s1.data ++ " ".data ++ s2.data by
      simp [String.data_append]]
    simp [show (" ".data : List Char) = [' '] by decide]
  rw [h] at hmem
  exact absurd hmem (by decide)

/-- Claim C9: `formatBytes` returns `"Unknown"` exactly for `undefined` and
for `0` — the falsy guard `if (!bytes)` precedes the `bytes === 0` check, so
the `"0 B"` branch is unreachable and a capacity of 0 bytes displays as
`"Unknown"`, not `"0 B"`. -/
theorem claim_C9_formatBytes_zero :
    (∀ b : Option Nat, formatBytes b = "Unknown" ↔ b = none ∨ b = some 0) ∧
    formatBytes (some 0) ≠ "0 B" := by
  constructor
  · intro b
    constructor
    · intro h
      cases b with
      | none => exact Or.inl rfl
      | some n =>
        by_cases hn : n = 0
        · exact Or.inr (by rw [hn])
        · exfalso
          rw [formatBytes] at h
          rw [if_neg hn, if_neg hn] at h
          exact append_space_ne_Unknown _ _ h
    · rintro (rfl | rfl) <;> rfl
  · intro h
    rw [show formatBytes (some 0) = "Unknown" from rfl] at h
    exact absurd h (by decide)

/-- Claim C10: every `addEvent` call prepends exactly one bracketed
timestamped entry and truncates, so the resulting log is the 20-entry
truncation of the new entry consed onto the old log: its newest entry comes
first and its length never exceeds 20, for any starting log. -/
theorem claim_C10_addEvent (timestamp message : String) (log : List String) :
    addEvent timestamp message log =
      (("[" ++ timestamp ++ "] " ++ message) :: log).take 20 ∧
    (addEvent timestamp message log).length ≤ 20 ∧
    (addEvent timestamp message log).head? =
      some ("[" ++ timestamp ++ "] " ++ message) := by
  have hmain : addEvent timestamp message log =
      (("[" ++ timestamp ++ "] " ++ message) :: log).take 20 := by
    rw [addEvent]
    split
    · rfl
    · rename_i hlen
      simp only [List.length_cons, Nat.not_lt] at hlen
      exact (List.take_of_length_le (by simpa using hlen)).symm
  refine ⟨hmain, ?_, ?_⟩
  · rw [hmain, List.length_take]
    omega
  · rw [hmain]
    rfl

end USBManager
